import Mathlib

/-!
Verification of the mononoke filelog delta resolver and wireprotocol server.

Shallow embedding of:
 - `src/bundle2-resolver/src/changegroup/filelog.rs`
   (`DeltaCache::decode`, `convert_to_revlog_filelog`, `filelog_to_deltaed`,
    `compute_delta`, `files_check_order`)
 - `src/server/src/repo.rs`
   (`RepoClient::between` with its inner `ParentStream`, and the
    bookmarks `listkeys` part of `RepoClient::create_bundle`)

Bytes are modelled as `List Nat`, node hashes as `Nat` with `0` playing the
role of the all-zero `NULL_HASH`, and futures as their eventual results;
a future that can hang or fail is an `Option`/`Except` value.  Statistics
counters are modelled as explicit lists of recorded events.
-/

set_option linter.unusedVariables false

/-- 20-byte content identifier, modelled as a natural number. -/
abbrev NodeHash := Nat

/-- The all-zero sentinel hash denoting "absent". -/
def NULL_HASH : NodeHash := 0

/-- `NodeHash::into_option`: `NULL_HASH` becomes `none`, anything else `some`. -/
def NodeHash.intoOption (n : NodeHash) : Option NodeHash :=
  if n = NULL_HASH then none else some n

/-- A delta fragment: replace `base[start..end]` by `content`.
    The Rust field `end` is spelled `end_` (`end` is a Lean keyword). -/
structure Fragment where
  start : Nat
  end_ : Nat
  content : List Nat
deriving DecidableEq

/-- `mercurial_types::Delta`: an ordered sequence of fragments. -/
structure Delta where
  frags : List Fragment
deriving DecidableEq

/-- The slice `b[i..j]` of a byte buffer. -/
def byteSlice (b : List Nat) (i j : Nat) : List Nat :=
  (b.take j).drop i

namespace delta

/-- Modelled from the spec: `apply` walks fragments in order, copying
    `base[cursor..frag.start]` then appending `frag.content` and setting
    `cursor = frag.end`; it finishes with `base[cursor..]`
    (`mercurial_types::delta::apply`, consumed by filelog.rs but outside src/). -/
def applyFrom (base : List Nat) (cursor : Nat) : List Fragment → List Nat
  | [] => base.drop cursor
  | f :: fs => byteSlice base cursor f.start ++ f.content ++ applyFrom base f.end_ fs

/-- `delta::apply(base, delta)`. -/
def apply (base : List Nat) (d : Delta) : List Nat :=
  applyFrom base 0 d.frags

end delta

/-- Modelled from the spec: `Delta::new_fulltext(bytes)` builds
    `Delta([Fragment {0, 0, bytes}])` (outside src/). -/
def Delta.newFulltext (bs : List Nat) : Delta :=
  ⟨[⟨0, 0, bs⟩]⟩

/-- Models of the error kinds surfaced by the resolver (`failure` errors in
    the source, distinguished here only as far as the claims need). -/
inductive MErr where
  /-- `repo.get_file_content` failing because the node is unknown. -/
  | contentMissing (node : NodeHash)
  /-- `err.context(...)` wrapping with a context message. -/
  | context (msg : String) (inner : MErr)
  /-- An invalid path rejected by `RepoPath::file`. -/
  | invalidPath (path : List Nat)
  /-- A panic, i.e. a fatal invariant violation. -/
  | internal (msg : String)
deriving DecidableEq

/-- The context message of `DeltaCache::decode`:
    `"While looking for base {:?} to apply on delta {:?}"`. -/
def baseContextMsg (base node : NodeHash) : String :=
  "While looking for base " ++ toString base ++ " to apply on delta " ++ toString node

instance exceptDecEq {ε α : Type} [DecidableEq ε] [DecidableEq α] :
    DecidableEq (Except ε α) := fun a b =>
  match a, b with
  | .error x, .error y =>
    match decEq x y with
    | .isTrue h => .isTrue (h ▸ rfl)
    | .isFalse h => .isFalse (fun hh => h (Except.error.inj hh))
  | .ok x, .ok y =>
    match decEq x y with
    | .isTrue h => .isTrue (h ▸ rfl)
    | .isFalse h => .isFalse (fun hh => h (Except.ok.inj hh))
  | .error _, .ok _ => .isFalse (fun hh => Except.noConfusion hh)
  | .ok _, .error _ => .isFalse (fun hh => Except.noConfusion hh)

/-- The delta cache's map `node -> Shared future of bytes`, with each shared
    future represented by its eventual result. -/
abbrev Cache := List (NodeHash × Except MErr (List Nat))

/-- The four stats counters touched by `DeltaCache::decode`. -/
inductive StatEvent where
  | deltacacheDsize (v : Nat)
  | deltacacheDsizeLarge (v : Nat)
  | deltacacheFsize (v : Nat)
  | deltacacheFsizeLarge (v : Nat)
deriving DecidableEq

/-- Model of `delta.heap_size_of_children()`: the heap held by a delta is the
    byte content of its fragments. -/
def Delta.heapSizeOfChildren (d : Delta) : Nat :=
  (d.frags.map (fun f => f.content.length)).sum

/-- The `inspect` attached to every future returned by `decode`: on successful
    resolution it records the buffer length into the two fsize counters;
    a failed future records nothing. -/
def onResolve : Except MErr (List Nat) → List StatEvent
  | .ok bs => [.deltacacheFsize bs.length, .deltacacheFsizeLarge bs.length]
  | .error _ => []

/-- The `fut.map_err(... context ...)` wrapping of base-resolution errors. -/
def wrapBaseErr (base node : NodeHash) : Except MErr (List Nat) → Except MErr (List Nat)
  | .ok v => .ok v
  | .error e => .error (.context (baseContextMsg base node) e)

/-- `HashMap::insert` followed by the duplicate-key check: inserting an
    already-present key is the panic branch, modelled as `none`. -/
def insertChecked (cache : Cache) (node : NodeHash) (v : Except MErr (List Nat)) :
    Option Cache :=
  match List.lookup node cache with
  | some _ => none
  | none => some ((node, v) :: cache)

/-- The outcome of one `DeltaCache::decode` call: the eventual result of the
    returned future, the cache afterwards, the stats recorded synchronously
    during the call, and the stats recorded when the returned future resolves. -/
structure DecodeOut where
  res : Except MErr (List Nat)
  cache : Cache
  callStats : List StatEvent
  resolveStats : List StatEvent
deriving DecidableEq

/-- `DeltaCache::decode(node, base, delta)` over a repo modelled as
    `get_file_content : NodeHash → Option bytes`.  `none` is the
    duplicate-insertion panic. -/
def DeltaCache.decode (repo : NodeHash → Option (List Nat)) (cache : Cache)
    (node : NodeHash) (base : Option NodeHash) (d : Delta) : Option DecodeOut :=
  match List.lookup node cache with
  | some bytes => some ⟨bytes, cache, [], onResolve bytes⟩
  | none =>
    let dsize := d.heapSizeOfChildren
    let callStats : List StatEvent :=
      [.deltacacheDsize dsize, .deltacacheDsizeLarge dsize]
    let vec : Except MErr (List Nat) :=
      match base with
      | none => .ok (delta.apply [] d)
      | some b =>
        let fut : Except MErr (List Nat) :=
          match List.lookup b cache with
          | some bytes => bytes.map (fun bs => delta.apply bs d)
          | none =>
            match repo b with
            | some bs => .ok (delta.apply bs d)
            | none => .error (.contentMissing b)
        wrapBaseErr b node fut
    match insertChecked cache node vec with
    | none => none
    | some cache' => some ⟨vec, cache', callStats, onResolve vec⟩

/-- A sequence of `decode` calls against one `DeltaCache`; `none` if any call
    hits the panic branch. -/
def decodeSeq (repo : NodeHash → Option (List Nat)) (cache : Cache) :
    List (NodeHash × Option NodeHash × Delta) → Option Cache
  | [] => some cache
  | (n, b, d) :: rest =>
    match DeltaCache.decode repo cache n b d with
    | none => none
    | some out => decodeSeq repo out.cache rest

/-- A file path (`MPath`), as raw bytes. -/
abbrev MPath := List Nat

/-- Modelled from the spec: an `MPath` is valid when non-empty, with no
    interior NULs and no empty `/`-separated components
    (`MPath` validation lives in mercurial_types, outside src/). -/
def validMPath (p : MPath) : Bool :=
  !p.isEmpty && (p.splitOn 47).all (fun c => !c.isEmpty) && !p.contains 0

/-- `mercurial_types::RepoPath`. -/
inductive RepoPath where
  | Root
  | Directory (p : MPath)
  | File (p : MPath)
deriving DecidableEq

/-- Modelled from the spec: `RepoPath::file` builds the `File` variant,
    failing with `InvalidPath` on an invalid path (outside src/). -/
def RepoPath.file (p : MPath) : Except MErr RepoPath :=
  if validMPath p then .ok (.File p) else .error (.invalidPath p)

/-- `RepoPath::mpath()`: the path carried by a `File` or `Directory`. -/
def RepoPath.mpath : RepoPath → Option MPath
  | .File p => some p
  | .Directory p => some p
  | .Root => none

/-- A record of the incoming changegroup stream
    (`mercurial_bundles::changegroup::CgDeltaChunk`). -/
structure CgDeltaChunk where
  node : NodeHash
  p1 : NodeHash
  p2 : NodeHash
  base : NodeHash
  linknode : NodeHash
  delta : Delta
deriving DecidableEq

/-- `FilelogDeltaed { path, chunk }`: the unprocessed input record. -/
structure FilelogDeltaed where
  path : MPath
  chunk : CgDeltaChunk
deriving DecidableEq

/-- The resolver's output: a fully materialized file revision. -/
structure Filelog where
  path : RepoPath
  node : NodeHash
  p1 : Option NodeHash
  p2 : Option NodeHash
  linknode : NodeHash
  blob : List Nat
deriving DecidableEq

/-- `filelog_to_deltaed`: re-encode a `Filelog` as a full-text record with
    `base = NULL_HASH` (the `unwrap` on `mpath()` is `getD []`, never taken
    for `File` paths). -/
def filelogToDeltaed (f : Filelog) : FilelogDeltaed :=
  { path := (f.path.mpath).getD []
  , chunk :=
    { node := f.node
    , p1 := f.p1.getD NULL_HASH
    , p2 := f.p2.getD NULL_HASH
    , base := NULL_HASH
    , linknode := f.linknode
    , delta := Delta.newFulltext f.blob } }

/-- The body of `convert_to_revlog_filelog`, threading the `DeltaCache`:
    returns the Filelogs emitted before the stream terminates, and the error
    terminating it (if any). -/
def convertGo (repo : NodeHash → Option (List Nat)) (cache : Cache) :
    List FilelogDeltaed → List Filelog × Option MErr
  | [] => ([], none)
  | ⟨path, chunk⟩ :: rest =>
    match DeltaCache.decode repo cache chunk.node chunk.base.intoOption chunk.delta with
    | none => ([], some (.internal "duplicate delta cache insertion"))
    | some out =>
      match out.res with
      | .error e => ([], some e)
      | .ok blob =>
        match RepoPath.file path with
        | .error e => ([], some e)
        | .ok rp =>
          let f : Filelog :=
            ⟨rp, chunk.node, chunk.p1.intoOption, chunk.p2.intoOption, chunk.linknode, blob⟩
          let rest' := convertGo repo out.cache rest
          (f :: rest'.1, rest'.2)

/-- `convert_to_revlog_filelog(repo, deltaed)`: a fresh `DeltaCache` per stream. -/
def convertToRevlogFilelog (repo : NodeHash → Option (List Nat))
    (input : List FilelogDeltaed) : List Filelog × Option MErr :=
  convertGo repo [] input

/-- `itertools::EitherOrBoth` as produced by `zip_longest`. -/
inductive ZipEntry where
  | both (v1 v2 : Nat)
  | left (v1 : Nat)
  | right (v2 : Nat)
deriving DecidableEq

/-- `b1.iter().zip_longest(b2.iter())`. -/
def zipLongest : List Nat → List Nat → List ZipEntry
  | [], ys => ys.map .right
  | v1 :: xs, [] => .left v1 :: zipLongest xs []
  | v1 :: xs, v2 :: ys => .both v1 v2 :: zipLongest xs ys

/-- The mutable state of `compute_delta`'s loop: the fragments pushed so far,
    and the pending fragment (`start`, `frag`). -/
structure CDState where
  frags : List Fragment
  start : Nat
  frag : List Nat
deriving DecidableEq

/-- One iteration of `compute_delta`'s `for (idx, val) in ... .enumerate()` loop. -/
def cdStep (idx : Nat) (e : ZipEntry) (st : CDState) : CDState :=
  match e with
  | .both v1 v2 =>
    if v1 = v2 ∧ st.frag ≠ [] then
      { frags := st.frags ++ [⟨st.start, st.start + st.frag.length, st.frag⟩]
      , start := st.start, frag := [] }
    else if v1 ≠ v2 then
      if st.frag = [] then { st with start := idx, frag := [v2] }
      else { st with frag := st.frag ++ [v2] }
    else st
  | .left _ => st
  | .right v2 =>
    if st.frag = [] then { st with start := idx, frag := [v2] }
    else { st with frag := st.frag ++ [v2] }

/-- `compute_delta`'s loop over the enumerated `zip_longest` entries. -/
def cdLoop : Nat → List ZipEntry → CDState → CDState
  | _, [], st => st
  | idx, e :: es, st => cdLoop (idx + 1) es (cdStep idx e st)

/-- `compute_delta(b1, b2)` from the filelog.rs test module: the loop, then the
    trailing pending fragment (clamped to `b1.len()`), then the deletion
    fragment when `b1` is longer than `b2`. -/
def computeDelta (b1 b2 : List Nat) : Delta :=
  let st := cdLoop 0 (zipLongest b1 b2) ⟨[], 0, []⟩
  let frags1 :=
    if st.frag = [] then st.frags
    else st.frags ++ [⟨st.start, min (st.start + st.frag.length) b1.length, st.frag⟩]
  let frags2 :=
    if b2.length < b1.length then frags1 ++ [⟨b2.length, b1.length, []⟩]
    else frags1
  ⟨frags2⟩

/-- The input built by `files_check_order`: two full-text records, the second
    re-based onto the first, in correct or reversed order. -/
def filesCheckOrderInput (f1 f2 : Filelog) (correctOrder : Bool) : List FilelogDeltaed :=
  let f1d := filelogToDeltaed f1
  let f2d0 := filelogToDeltaed f2
  let f2d := { f2d0 with chunk :=
    { f2d0.chunk with base := f1.node, delta := computeDelta f1.blob f2.blob } }
  if correctOrder then [f1d, f2d] else [f2d, f1d]

/-- `mercurial_types::Parents`. -/
inductive Parents where
  | none
  | one (p : NodeHash)
  | two (p1 p2 : NodeHash)
deriving DecidableEq

/-- The parent selected by `ParentStream::poll`: p1, or `NULL_HASH` for
    `Parents::None`. -/
def firstParent : Parents → NodeHash
  | .none => NULL_HASH
  | .one p => p
  | .two p _ => p

/-- The raw chain produced by `ParentStream`: `[top, p1(top), ...]`, stopping
    before a node equal to `bottom` or `NULL_HASH`.  The repo is
    `get_changeset_by_nodeid` restricted to its parents; `fuel` bounds the
    number of fetches and `none` models a failed fetch or a walk that does not
    finish within `fuel` steps. -/
def parentChain (repo : NodeHash → Option Parents) (bottom : NodeHash) :
    Nat → NodeHash → Option (List NodeHash)
  | fuel, n =>
    if n = bottom ∨ n = NULL_HASH then some []
    else
      match fuel, repo n with
      | 0, _ => Option.none
      | _ + 1, Option.none => Option.none
      | fuel' + 1, some ps =>
        (parentChain repo bottom fuel' (firstParent ps)).map (fun ch => n :: ch)

/-- The sampling filter of `between`: the closure captures `f` (initially 1)
    and keeps index `i` exactly when `i == f`, doubling `f` on a match. -/
def sampleFilter (f : Nat) : List (Nat × NodeHash) → List NodeHash
  | [] => []
  | (i, v) :: rest =>
    if i = f then v :: sampleFilter (2 * f) rest else sampleFilter f rest

/-- One pair of `RepoClient::between`: the enumerated raw chain run through the
    sampling filter. -/
def betweenPair (repo : NodeHash → Option Parents) (fuel : Nat)
    (top bottom : NodeHash) : Option (List NodeHash) :=
  (parentChain repo bottom fuel top).map (fun ch => sampleFilter 1 ch.enum)

/-- `RepoClient::between` over all input pairs (errors abort the whole
    response, as with the collected stream). -/
def between (repo : NodeHash → Option Parents) (fuel : Nat)
    (pairs : List (NodeHash × NodeHash)) : Option (List (List NodeHash)) :=
  pairs.mapM (fun p => betweenPair repo fuel p.1 p.2)

/-- `i` is a power of two (`1, 2, 4, 8, ...`). -/
def isPow2 : Nat → Bool
  | 0 => false
  | 1 => true
  | n + 2 => (n + 2) % 2 == 0 && isPow2 ((n + 2) / 2)
decreasing_by exact Nat.div_lt_self (by omega) (by omega)

/-- The spec-side description of the `between` sampling: keep exactly the
    chain elements at power-of-two indices. -/
def pow2Sample (l : List NodeHash) : List NodeHash :=
  (l.enum.filter (fun p => isPow2 p.1)).map Prod.snd

/-- A linear history: changesets `1, ..., 32`, each with first parent the
    next number, so `33` is the bottom of a 32-ancestor chain from `1`. -/
def repo32 : NodeHash → Option Parents :=
  fun n => if 1 ≤ n ∧ n ≤ 32 then some (.one (n + 1)) else Option.none

/-- Model of `hash.to_hex()` for bookmark values. -/
def nodeHex (n : NodeHash) : String :=
  String.mk (Nat.toDigits 16 n)

/-- The bookmarks `listkeys` pairs as built by `RepoClient::create_bundle`:
    for each name the value is fetched; a present value yields
    `(name, to_hex(hash))`, while an absent one makes the code return
    `future::empty()` — a future that never resolves — so the part stream
    (and the bundle build) never completes, modelled as `none`. -/
def bookmarkItems (get : String → Option (NodeHash × Nat)) :
    List String → Option (List (String × String))
  | [] => some []
  | name :: rest =>
    match get name with
    | some (hash, _version) =>
      (bookmarkItems get rest).map (fun items => (name, nodeHex hash) :: items)
    | Option.none => Option.none

/-- Modelled from the spec: the intended behaviour documented by the source
    comment ("Skip it.") and the spec — names whose value lookup races to
    `None` are silently dropped and the remaining pairs are kept. -/
def bookmarkItemsIntended (get : String → Option (NodeHash × Nat))
    (names : List String) : List (String × String) :=
  names.filterMap (fun name => (get name).map (fun hv => (name, nodeHex hv.1)))

/-! ### Proof scaffolding for the delta roundtrip -/

/-- The cursor after applying a list of fragments: the `end` of the last
    fragment, or the incoming cursor for an empty list. -/
def endCurFrom (cur : Nat) (fs : List Fragment) : Nat :=
  fs.foldl (fun _ f => f.end_) cur

/-- The output of `applyFrom` without its trailing `base[cursor..]`. -/
def outFrags (b : List Nat) (cur : Nat) : List Fragment → List Nat
  | [] => []
  | f :: fs => byteSlice b cur f.start ++ f.content ++ outFrags b f.end_ fs

@[simp] lemma endCurFrom_nil (cur : Nat) : endCurFrom cur [] = cur := rfl

@[simp] lemma endCurFrom_cons (cur : Nat) (f : Fragment) (fs : List Fragment) :
    endCurFrom cur (f :: fs) = endCurFrom f.end_ fs := rfl

lemma endCurFrom_snoc (cur : Nat) (fs : List Fragment) (g : Fragment) :
    endCurFrom cur (fs ++ [g]) = g.end_ := by
  simp [endCurFrom, List.foldl_append]

lemma outFrags_snoc (b : List Nat) (cur : Nat) (fs : List Fragment) (g : Fragment) :
    outFrags b cur (fs ++ [g])
      = outFrags b cur fs ++ byteSlice b (endCurFrom cur fs) g.start ++ g.content := by
  induction fs generalizing cur with
  | nil => simp [outFrags]
  | cons f fs ih => simp [outFrags, ih, List.append_assoc]

lemma applyFrom_eq_outFrags (b : List Nat) (cur : Nat) (fs : List Fragment) :
    delta.applyFrom b cur fs = outFrags b cur fs ++ b.drop (endCurFrom cur fs) := by
  induction fs generalizing cur with
  | nil => simp [delta.applyFrom, outFrags]
  | cons f fs ih => simp [delta.applyFrom, outFrags, ih, List.append_assoc]

lemma lt_length_of_getElem? {l : List Nat} {i x : Nat} (h : l[i]? = some x) :
    i < l.length := by
  by_contra hc
  rw [List.getElem?_eq_none (le_of_not_lt hc)] at h
  cases h

lemma take_succ_some {l : List Nat} {i x : Nat} (h : l[i]? = some x) :
    l.take (i + 1) = l.take i ++ [x] := by
  rw [List.take_succ, h]; rfl

lemma byteSlice_succ {b : List Nat} {i x : Nat} (c : Nat) (h : b[i]? = some x)
    (hc : c ≤ i) : byteSlice b c (i + 1) = byteSlice b c i ++ [x] := by
  have hi : i < b.length := lt_length_of_getElem? h
  rw [byteSlice, take_succ_some h,
    List.drop_append_of_le_length (by rw [List.length_take]; omega)]
  rfl

lemma byteSlice_self (b : List Nat) (c : Nat) : byteSlice b c c = [] := by
  apply List.drop_eq_nil_of_le
  rw [List.length_take]; omega

lemma byteSlice_of_length_le {b : List Nat} {m : Nat} (c : Nat) (h : b.length ≤ m) :
    byteSlice b c m = b.drop c := by
  rw [byteSlice, List.take_of_length_le h]

lemma drop_cons_facts {l : List Nat} {i x : Nat} {xs : List Nat}
    (h : l.drop i = x :: xs) :
    l[i]? = some x ∧ l.drop (i + 1) = xs ∧ i < l.length := by
  refine ⟨?_, ?_, ?_⟩
  · have h0 : (l.drop i)[0]? = some x := by rw [h]; simp
    rw [List.getElem?_drop] at h0
    simpa using h0
  · have hd := List.drop_drop 1 i l
    rw [h] at hd
    simpa using hd.symm
  · have hl := List.length_drop i l
    rw [h] at hl
    simp at hl
    omega

/-- The loop invariant of `compute_delta` at entry `idx`: the closed fragments
    (plus the pending one, if any) applied to `b1` reproduce the prefix of `b2`
    consumed so far. -/
def cdInv (b1 b2 : List Nat) (idx : Nat) (st : CDState) : Prop :=
  (st.frag = [] →
    endCurFrom 0 st.frags ≤ min idx b2.length ∧
    idx ≤ b1.length ∧
    outFrags b1 0 st.frags ++ byteSlice b1 (endCurFrom 0 st.frags) (min idx b2.length)
      = b2.take (min idx b2.length)) ∧
  (st.frag ≠ [] →
    endCurFrom 0 st.frags ≤ st.start ∧
    st.start ≤ b1.length ∧
    st.start + st.frag.length = min idx b2.length ∧
    outFrags b1 0 st.frags ++ byteSlice b1 (endCurFrom 0 st.frags) st.start ++ st.frag
      = b2.take (min idx b2.length))

lemma cdInv_step_both (b1 b2 : List Nat) (idx x y : Nat) (st : CDState)
    (hx : b1[idx]? = some x) (hy : b2[idx]? = some y)
    (h : cdInv b1 b2 idx st) : cdInv b1 b2 (idx + 1) (cdStep idx (.both x y) st) := by
  have hi1 : idx < b1.length := lt_length_of_getElem? hx
  have hi2 : idx < b2.length := lt_length_of_getElem? hy
  have hm : min idx b2.length = idx := Nat.min_eq_left hi2.le
  have hm' : min (idx + 1) b2.length = idx + 1 := Nat.min_eq_left hi2
  have hty : b2.take (idx + 1) = b2.take idx ++ [y] := take_succ_some hy
  obtain ⟨hemp, hne⟩ := h
  by_cases hxy : x = y
  · by_cases hfe : st.frag = []
    · -- equal bytes, no pending fragment: state unchanged
      obtain ⟨hc, hib, heq⟩ := hemp hfe
      rw [hm] at hc heq
      have hstep : cdStep idx (.both x y) st = st := by
        simp [cdStep, hfe, hxy]
      rw [hstep]
      refine ⟨fun _ => ?_, fun hcontr => absurd hfe hcontr⟩
      rw [hm']
      refine ⟨by omega, by omega, ?_⟩
      rw [byteSlice_succ _ hx hc, hty, ← List.append_assoc, heq, hxy]
    · -- equal bytes, pending fragment: close it
      obtain ⟨hc, hsb, hsum, heq⟩ := hne hfe
      rw [hm] at hsum heq
      have hstep : cdStep idx (.both x y) st
          = { frags := st.frags ++ [⟨st.start, st.start + st.frag.length, st.frag⟩]
            , start := st.start, frag := [] } := by
        simp [cdStep, hfe, hxy]
      rw [hstep]
      constructor
      · intro _
        rw [hm']
        simp only [endCurFrom_snoc, outFrags_snoc]
        refine ⟨by omega, by omega, ?_⟩
        rw [show st.start + st.frag.length = idx from hsum]
        rw [byteSlice_succ _ hx (by omega), byteSlice_self, hty]
        simp only [List.append_nil, List.nil_append, ← List.append_assoc] at heq ⊢
        rw [heq, hxy]
      · intro hcontr
        simp at hcontr
  · by_cases hfe : st.frag = []
    · -- differing bytes, no pending fragment: open one at idx
      obtain ⟨hc, hib, heq⟩ := hemp hfe
      rw [hm] at hc heq
      have hstep : cdStep idx (.both x y) st = { st with start := idx, frag := [y] } := by
        simp [cdStep, hfe, hxy]
      rw [hstep]
      constructor
      · intro hcontr
        simp at hcontr
      · intro _
        rw [hm']
        simp only []
        refine ⟨hc, by omega, by simp, ?_⟩
        rw [hty, ← heq, List.append_assoc]
    · -- differing bytes, pending fragment: extend it
      obtain ⟨hc, hsb, hsum, heq⟩ := hne hfe
      rw [hm] at hsum heq
      have hstep : cdStep idx (.both x y) st = { st with frag := st.frag ++ [y] } := by
        simp [cdStep, hfe, hxy]
      rw [hstep]
      constructor
      · intro hcontr
        simp [hfe] at hcontr
      · intro _
        rw [hm']
        simp only []
        refine ⟨hc, hsb, by simp; omega, ?_⟩
        rw [hty, ← heq]
        simp [List.append_assoc]

lemma cdInv_step_left (b1 b2 : List Nat) (idx x : Nat) (st : CDState)
    (hx : b1[idx]? = some x) (hy : b2.length ≤ idx)
    (h : cdInv b1 b2 idx st) : cdInv b1 b2 (idx + 1) (cdStep idx (.left x) st) := by
  have hi1 : idx < b1.length := lt_length_of_getElem? hx
  have hm : min idx b2.length = b2.length := Nat.min_eq_right hy
  have hm' : min (idx + 1) b2.length = b2.length := Nat.min_eq_right (by omega)
  obtain ⟨hemp, hne⟩ := h
  have hstep : cdStep idx (.left x) st = st := rfl
  rw [hstep]
  constructor
  · intro hfe
    obtain ⟨hc, hib, heq⟩ := hemp hfe
    rw [hm] at hc heq
    rw [hm']
    exact ⟨hc, by omega, heq⟩
  · intro hfe
    obtain ⟨hc, hsb, hsum, heq⟩ := hne hfe
    rw [hm] at hsum heq
    rw [hm']
    exact ⟨hc, hsb, hsum, heq⟩

lemma cdInv_step_right (b1 b2 : List Nat) (idx y : Nat) (st : CDState)
    (hx : b1.length ≤ idx) (hy : b2[idx]? = some y)
    (h : cdInv b1 b2 idx st) : cdInv b1 b2 (idx + 1) (cdStep idx (.right y) st) := by
  have hi2 : idx < b2.length := lt_length_of_getElem? hy
  have hm : min idx b2.length = idx := Nat.min_eq_left hi2.le
  have hm' : min (idx + 1) b2.length = idx + 1 := Nat.min_eq_left hi2
  have hty : b2.take (idx + 1) = b2.take idx ++ [y] := take_succ_some hy
  obtain ⟨hemp, hne⟩ := h
  by_cases hfe : st.frag = []
  · -- no pending fragment: this is the first excess byte of b2, so idx = b1.len
    obtain ⟨hc, hib, heq⟩ := hemp hfe
    rw [hm] at hc heq
    have hstep : cdStep idx (.right y) st = { st with start := idx, frag := [y] } := by
      simp [cdStep, hfe]
    rw [hstep]
    constructor
    · intro hcontr
      simp at hcontr
    · intro _
      rw [hm']
      simp only []
      refine ⟨hc, by omega, by simp, ?_⟩
      rw [hty, ← heq, List.append_assoc]
  · obtain ⟨hc, hsb, hsum, heq⟩ := hne hfe
    rw [hm] at hsum heq
    have hstep : cdStep idx (.right y) st = { st with frag := st.frag ++ [y] } := by
      simp [cdStep, hfe]
    rw [hstep]
    constructor
    · intro hcontr
      simp [hfe] at hcontr
    · intro _
      rw [hm']
      simp only []
      refine ⟨hc, hsb, by simp; omega, ?_⟩
      rw [hty, ← heq]
      simp [List.append_assoc]

lemma cdInv_final (b1 b2 : List Nat) (idx : Nat) (st : CDState)
    (hx : b1.length ≤ idx) (hy : b2.length ≤ idx)
    (h : cdInv b1 b2 idx st) : cdInv b1 b2 (max b1.length b2.length) st := by
  obtain ⟨hemp, hne⟩ := h
  have hm1 : min idx b2.length = b2.length := Nat.min_eq_right hy
  have hmN : min (max b1.length b2.length) b2.length = b2.length :=
    Nat.min_eq_right (le_max_right _ _)
  constructor
  · intro hfe
    obtain ⟨hc, hib, heq⟩ := hemp hfe
    rw [hm1] at hc heq
    rw [hmN]
    have hb : b2.length ≤ b1.length := by omega
    refine ⟨hc, ?_, heq⟩
    rw [Nat.max_eq_left hb]
  · intro hfe
    obtain ⟨hc, hsb, hsum, heq⟩ := hne hfe
    rw [hm1] at hsum heq
    rw [hmN]
    exact ⟨hc, hsb, hsum, heq⟩

lemma cdLoop_inv (b1 b2 : List Nat) :
    ∀ (n : Nat) (xs ys : List Nat) (idx : Nat) (st : CDState),
      xs.length + ys.length ≤ n →
      xs = b1.drop idx → ys = b2.drop idx →
      cdInv b1 b2 idx st →
      cdInv b1 b2 (max b1.length b2.length) (cdLoop idx (zipLongest xs ys) st) := by
  intro n
  induction n with
  | zero =>
    intro xs ys idx st hn hxs hys hinv
    match xs, ys with
    | [], [] =>
      simp only [zipLongest, List.map_nil, cdLoop]
      exact cdInv_final b1 b2 idx st
        (List.drop_eq_nil_iff.mp hxs.symm) (List.drop_eq_nil_iff.mp hys.symm) hinv
    | x :: xs', _ => simp at hn
    | [], y :: ys' => simp at hn
  | succ n ih =>
    intro xs ys idx st hn hxs hys hinv
    match xs, ys with
    | [], [] =>
      simp only [zipLongest, List.map_nil, cdLoop]
      exact cdInv_final b1 b2 idx st
        (List.drop_eq_nil_iff.mp hxs.symm) (List.drop_eq_nil_iff.mp hys.symm) hinv
    | x :: xs', [] =>
      obtain ⟨hg, hd, hlt⟩ := drop_cons_facts hxs.symm
      have hy : b2.length ≤ idx := List.drop_eq_nil_iff.mp hys.symm
      simp only [zipLongest, cdLoop]
      apply ih xs' [] (idx + 1) _ (by simp at hn ⊢; omega) hd.symm
        (by symm; exact List.drop_eq_nil_of_le (by omega))
      exact cdInv_step_left b1 b2 idx x st hg hy hinv
    | [], y :: ys' =>
      obtain ⟨hg, hd, hlt⟩ := drop_cons_facts hys.symm
      have hx : b1.length ≤ idx := List.drop_eq_nil_iff.mp hxs.symm
      simp only [zipLongest, List.map_cons, cdLoop]
      apply ih [] ys' (idx + 1) _ (by simp at hn ⊢; omega)
        (by symm; exact List.drop_eq_nil_of_le (by omega)) hd.symm
      exact cdInv_step_right b1 b2 idx y st hx hg hinv
    | x :: xs', y :: ys' =>
      obtain ⟨hg1, hd1, hlt1⟩ := drop_cons_facts hxs.symm
      obtain ⟨hg2, hd2, hlt2⟩ := drop_cons_facts hys.symm
      simp only [zipLongest, cdLoop]
      apply ih xs' ys' (idx + 1) _ (by simp at hn ⊢; omega) hd1.symm hd2.symm
      exact cdInv_step_both b1 b2 idx x y st hg1 hg2 hinv

/-- The delta/apply roundtrip: applying the constructively computed delta
    between `b1` and `b2` to `b1` yields `b2`. -/
lemma computeDelta_apply (b1 b2 : List Nat) :
    delta.apply b1 (computeDelta b1 b2) = b2 := by
  have h0 : cdInv b1 b2 0 ⟨[], 0, []⟩ := by
    constructor
    · intro _
      refine ⟨by simp, by simp, ?_⟩
      simp [outFrags, byteSlice]
    · intro hcontr
      simp at hcontr
  have hinv := cdLoop_inv b1 b2 (b1.length + b2.length) b1 b2 0 ⟨[], 0, []⟩
    (by omega) (by simp) (by simp) h0
  set st := cdLoop 0 (zipLongest b1 b2) ⟨[], 0, []⟩ with hst
  obtain ⟨hemp, hne⟩ := hinv
  have hmN : min (max b1.length b2.length) b2.length = b2.length :=
    Nat.min_eq_right (le_max_right _ _)
  show delta.applyFrom b1 0
    (let frags1 :=
      if st.frag = [] then st.frags
      else st.frags ++ [⟨st.start, min (st.start + st.frag.length) b1.length, st.frag⟩]
     if b2.length < b1.length then frags1 ++ [⟨b2.length, b1.length, []⟩] else frags1) = b2
  by_cases hfe : st.frag = []
  · obtain ⟨hc, hNb, heq⟩ := hemp hfe
    rw [hmN] at hc heq
    rw [List.take_length] at heq
    have hb2b1 : b2.length ≤ b1.length := le_trans (le_max_right _ _) hNb
    rw [if_pos hfe]
    by_cases hlt : b2.length < b1.length
    · rw [if_pos hlt, applyFrom_eq_outFrags, endCurFrom_snoc, outFrags_snoc]
      simp only [List.drop_length, List.append_nil]
      exact heq
    · rw [if_neg hlt, applyFrom_eq_outFrags]
      have hlen : b2.length = b1.length := by omega
      rw [← heq, byteSlice_of_length_le _ (by omega)]
  · obtain ⟨hc, hsb, hsum, heq⟩ := hne hfe
    rw [hmN] at hsum heq
    rw [List.take_length] at heq
    simp only [if_neg hfe]
    by_cases hlt : b2.length < b1.length
    · have hge : min (st.start + st.frag.length) b1.length = b2.length := by
        rw [hsum]; exact Nat.min_eq_left hlt.le
      rw [if_pos hlt, applyFrom_eq_outFrags, endCurFrom_snoc, outFrags_snoc,
        endCurFrom_snoc, outFrags_snoc]
      simp only [hge, byteSlice_self, List.drop_length, List.append_nil]
      exact heq
    · have hge : min (st.start + st.frag.length) b1.length = b1.length := by
        rw [hsum]; exact Nat.min_eq_right (by omega)
      rw [if_neg hlt, applyFrom_eq_outFrags, endCurFrom_snoc, outFrags_snoc]
      simp only [hge, List.drop_length, List.append_nil]
      exact heq

/-! ### Properties of the delta cache -/

/-- The value computed by `decode` on a cache miss (the future `vec` of the
    source, before insertion). -/
def decodeVec (repo : NodeHash → Option (List Nat)) (cache : Cache)
    (node : NodeHash) (base : Option NodeHash) (d : Delta) : Except MErr (List Nat) :=
  match base with
  | none => .ok (delta.apply [] d)
  | some b =>
    wrapBaseErr b node
      (match List.lookup b cache with
       | some bytes => bytes.map (fun bs => delta.apply bs d)
       | none =>
         match repo b with
         | some bs => .ok (delta.apply bs d)
         | none => .error (.contentMissing b))

lemma decode_hit (repo : NodeHash → Option (List Nat)) (cache : Cache)
    (node : NodeHash) (base : Option NodeHash) (d : Delta)
    (r : Except MErr (List Nat)) (h : List.lookup node cache = some r) :
    DeltaCache.decode repo cache node base d = some ⟨r, cache, [], onResolve r⟩ := by
  simp [DeltaCache.decode, h]

lemma decode_miss (repo : NodeHash → Option (List Nat)) (cache : Cache)
    (node : NodeHash) (base : Option NodeHash) (d : Delta)
    (h : List.lookup node cache = none) :
    DeltaCache.decode repo cache node base d
      = some ⟨decodeVec repo cache node base d,
              (node, decodeVec repo cache node base d) :: cache,
              [.deltacacheDsize d.heapSizeOfChildren,
               .deltacacheDsizeLarge d.heapSizeOfChildren],
              onResolve (decodeVec repo cache node base d)⟩ := by
  simp only [DeltaCache.decode, h, insertChecked, decodeVec]

lemma decode_some_lookup (repo : NodeHash → Option (List Nat)) (cache : Cache)
    (node : NodeHash) (base : Option NodeHash) (d : Delta) (o : DecodeOut)
    (h : DeltaCache.decode repo cache node base d = some o) :
    List.lookup node o.cache = some o.res := by
  cases hl : List.lookup node cache with
  | some r =>
    rw [decode_hit repo cache node base d r hl] at h
    cases h
    simpa using hl
  | none =>
    rw [decode_miss repo cache node base d hl] at h
    cases h
    simp [List.lookup_cons]

lemma lookup_none_not_mem {cache : Cache} {n : NodeHash}
    (h : List.lookup n cache = none) : n ∉ cache.map Prod.fst := by
  induction cache with
  | nil => simp
  | cons kv rest ih =>
    obtain ⟨k, v⟩ := kv
    rw [List.lookup_cons] at h
    by_cases hk : n = k
    · subst hk
      simp at h
    · have hbeq : (n == k) = false := beq_false_of_ne hk
      rw [hbeq] at h
      simp only [List.map_cons, List.mem_cons]
      rintro (rfl | hmem)
      · exact hk rfl
      · exact ih h hmem

lemma decodeSeq_ok (repo : NodeHash → Option (List Nat)) :
    ∀ (calls : List (NodeHash × Option NodeHash × Delta)) (cache : Cache),
      ∃ c', decodeSeq repo cache calls = some c'
        ∧ ((cache.map Prod.fst).Nodup → (c'.map Prod.fst).Nodup) := by
  intro calls
  induction calls with
  | nil => exact fun cache => ⟨cache, rfl, id⟩
  | cons call rest ih =>
    intro cache
    obtain ⟨n, b, d⟩ := call
    cases hl : List.lookup n cache with
    | some r =>
      obtain ⟨c', h1, h2⟩ := ih cache
      refine ⟨c', ?_, h2⟩
      simp only [decodeSeq, decode_hit repo cache n b d r hl]
      exact h1
    | none =>
      obtain ⟨c', h1, h2⟩ := ih ((n, decodeVec repo cache n b d) :: cache)
      refine ⟨c', ?_, fun hnd => h2 ?_⟩
      · simp only [decodeSeq, decode_miss repo cache n b d hl]
        exact h1
      · simp only [List.map_cons, List.nodup_cons]
        exact ⟨lookup_none_not_mem hl, hnd⟩

lemma apply_newFulltext (bs : List Nat) :
    delta.apply [] (Delta.newFulltext bs) = bs := by
  simp [delta.apply, Delta.newFulltext, delta.applyFrom, byteSlice]

lemma intoOption_null : NodeHash.intoOption NULL_HASH = none := rfl

lemma intoOption_of_ne {h : NodeHash} (hne : h ≠ NULL_HASH) :
    h.intoOption = some h := by
  simp [NodeHash.intoOption, hne]

lemma getD_intoOption {p : Option NodeHash} (h : p ≠ some NULL_HASH) :
    (p.getD NULL_HASH).intoOption = p := by
  cases p with
  | none => rfl
  | some v =>
    have hv : v ≠ NULL_HASH := fun hc => h (by rw [hc])
    simp [Option.getD, intoOption_of_ne hv]

/-- A repository that resolves no node at all. -/
def repoEmpty : NodeHash → Option (List Nat) := fun _ => none

/-! ### Claims about the delta cache and delta primitives -/

/-- C1: on a `decode(node, base, delta)` call for a node not already cached,
    a `None` base resolves to `apply("", delta)`; a cached base resolves to
    `apply(cached_bytes(base), delta)`; otherwise the base is fetched with
    `repo.get_file_content(base)`, and any error in the base lookup is wrapped
    with the context `"While looking for base {base} to apply on delta {node}"`;
    `base == NULL_HASH` is converted by `into_option` to `None` and hence is
    treated as the empty base for every repository, never as a lookup. -/
theorem c1_decode_base_resolution (repo : NodeHash → Option (List Nat))
    (cache : Cache) (node : NodeHash) (d : Delta)
    (hmiss : List.lookup node cache = none) :
    ((DeltaCache.decode repo cache node none d).map DecodeOut.res
        = some (.ok (delta.apply [] d)))
    ∧ (∀ b bs, List.lookup b cache = some (.ok bs) →
        (DeltaCache.decode repo cache node (some b) d).map DecodeOut.res
          = some (.ok (delta.apply bs d)))
    ∧ (∀ b e, List.lookup b cache = some (.error e) →
        (DeltaCache.decode repo cache node (some b) d).map DecodeOut.res
          = some (.error (.context (baseContextMsg b node) e)))
    ∧ (∀ b bs, List.lookup b cache = none → repo b = some bs →
        (DeltaCache.decode repo cache node (some b) d).map DecodeOut.res
          = some (.ok (delta.apply bs d)))
    ∧ (∀ b, List.lookup b cache = none → repo b = none →
        (DeltaCache.decode repo cache node (some b) d).map DecodeOut.res
          = some (.error (.context (baseContextMsg b node) (.contentMissing b))))
    ∧ (∀ repo2 : NodeHash → Option (List Nat),
        (DeltaCache.decode repo2 cache node NULL_HASH.intoOption d).map DecodeOut.res
          = some (.ok (delta.apply [] d))) := by
  refine ⟨?_, ?_, ?_, ?_, ?_, ?_⟩
  · rw [decode_miss repo cache node none d hmiss]
    simp [decodeVec]
  · intro b bs hb
    rw [decode_miss repo cache node (some b) d hmiss]
    simp [decodeVec, hb, Except.map, wrapBaseErr]
  · intro b e hb
    rw [decode_miss repo cache node (some b) d hmiss]
    simp [decodeVec, hb, Except.map, wrapBaseErr]
  · intro b bs hb hrepo
    rw [decode_miss repo cache node (some b) d hmiss]
    simp [decodeVec, hb, hrepo, wrapBaseErr]
  · intro b hb hrepo
    rw [decode_miss repo cache node (some b) d hmiss]
    simp [decodeVec, hb, hrepo, wrapBaseErr]
  · intro repo2
    rw [intoOption_null, decode_miss repo2 cache node none d hmiss]
    simp [decodeVec]

theorem c1_witness :
    (DeltaCache.decode repoEmpty [] 5 none (Delta.newFulltext [7])).map DecodeOut.res
      = some (.ok (delta.apply [] (Delta.newFulltext [7]))) :=
  (c1_decode_base_resolution repoEmpty [] 5 (Delta.newFulltext [7]) rfl).1

/-- C4: for all byte sequences `b1`, `b2`, applying the constructively
    computed delta between them to `b1` yields `b2`:
    `apply(b1, compute_delta(b1, b2)) == b2`. -/
theorem c4_compute_delta_roundtrip (b1 b2 : List Nat) :
    delta.apply b1 (computeDelta b1 b2) = b2 :=
  computeDelta_apply b1 b2

/-- C5: over any sequence of `decode` calls on one fresh `DeltaCache`, every
    node key is inserted at most once (the cache keys stay duplicate-free) and
    the duplicate-key panic branch is never taken (`decodeSeq` never returns
    `none`). -/
theorem c5_insert_at_most_once (repo : NodeHash → Option (List Nat))
    (calls : List (NodeHash × Option NodeHash × Delta)) :
    ∃ c', decodeSeq repo [] calls = some c' ∧ (c'.map Prod.fst).Nodup := by
  obtain ⟨c', h1, h2⟩ := decodeSeq_ok repo calls []
  exact ⟨c', h1, h2 (by simp)⟩

/-- A `decode` call never disturbs an existing cache entry: a hit leaves the
    map untouched and a miss only prepends a key that was absent. -/
lemma decode_preserves_lookup (repo : NodeHash → Option (List Nat)) (cache : Cache)
    (n' : NodeHash) (b' : Option NodeHash) (d' : Delta) (o : DecodeOut)
    (k : NodeHash) (r : Except MErr (List Nat))
    (hk : List.lookup k cache = some r)
    (h : DeltaCache.decode repo cache n' b' d' = some o) :
    List.lookup k o.cache = some r := by
  cases hl : List.lookup n' cache with
  | some r' =>
    rw [decode_hit repo cache n' b' d' r' hl] at h
    cases h
    exact hk
  | none =>
    rw [decode_miss repo cache n' b' d' hl] at h
    cases h
    have hne : (k == n') = false := by
      by_cases hkn : k = n'
      · subst hkn
        rw [hk] at hl
        cases hl
      · exact beq_false_of_ne hkn
    simp only [List.lookup_cons, hne]
    exact hk

lemma decodeSeq_preserves_lookup (repo : NodeHash → Option (List Nat))
    (k : NodeHash) (r : Except MErr (List Nat)) :
    ∀ (calls : List (NodeHash × Option NodeHash × Delta)) (c c' : Cache),
      List.lookup k c = some r → decodeSeq repo c calls = some c' →
      List.lookup k c' = some r := by
  intro calls
  induction calls with
  | nil =>
    intro c c' hk h
    cases h
    exact hk
  | cons call rest ih =>
    intro c c' hk h
    obtain ⟨n', b', d'⟩ := call
    cases hd : DeltaCache.decode repo c n' b' d' with
    | none =>
      simp only [decodeSeq, hd] at h
      cases h
    | some o =>
      simp only [decodeSeq, hd] at h
      exact ih o.cache c' (decode_preserves_lookup repo c n' b' d' o k r hk hd) h

/-- C9: once `decode(n, base1, delta1)` has been called, any later
    `decode(n, base2, delta2)` in the same stream — after arbitrarily many
    intervening `decode` calls for other nodes — returns the cached shared
    future: the same result bytes as the first call, with the cache unchanged,
    no call-time statistics, and the later call's arguments (and even the
    repository) ignored. -/
theorem c9_later_decode_ignores_args (repo repo2 repo3 : NodeHash → Option (List Nat))
    (cache : Cache) (n : NodeHash) (b : Option NodeHash) (d : Delta)
    (o1 : DecodeOut) (h1 : DeltaCache.decode repo cache n b d = some o1)
    (calls : List (NodeHash × Option NodeHash × Delta)) (c' : Cache)
    (hseq : decodeSeq repo2 o1.cache calls = some c')
    (b2 : Option NodeHash) (d2 : Delta) :
    DeltaCache.decode repo3 c' n b2 d2 = some ⟨o1.res, c', [], onResolve o1.res⟩ :=
  decode_hit repo3 c' n b2 d2 o1.res
    (decodeSeq_preserves_lookup repo2 n o1.res calls o1.cache c'
      (decode_some_lookup repo cache n b d o1 h1) hseq)

theorem c9_witness :
    DeltaCache.decode repoEmpty [(2, Except.ok [8]), (1, Except.ok [7])] 1 (some 9)
        (Delta.newFulltext [3])
      = some ⟨.ok [7], [(2, Except.ok [8]), (1, Except.ok [7])], [],
              [.deltacacheFsize 1, .deltacacheFsizeLarge 1]⟩ :=
  c9_later_decode_ignores_args repoEmpty repoEmpty repoEmpty [] 1 none
    (Delta.newFulltext [7])
    ⟨.ok [7], [(1, Except.ok [7])],
     [.deltacacheDsize 1, .deltacacheDsizeLarge 1],
     [.deltacacheFsize 1, .deltacacheFsizeLarge 1]⟩
    (by decide)
    [(2, none, Delta.newFulltext [8])]
    [(2, Except.ok [8]), (1, Except.ok [7])]
    (by decide) (some 9) (Delta.newFulltext [3])

/-- C6 counterexample: decoding a node that is already present in the cache
    does record statistics — the `inspect` attached to the returned future
    records the buffer length into both fsize counters when it resolves — so
    "records no statistics at all" is false. -/
theorem c6_counterexample :
    (DeltaCache.decode repoEmpty [(1, Except.ok [7])] 1 none
        (Delta.newFulltext [7])).map (fun o => o.callStats ++ o.resolveStats)
      = some [.deltacacheFsize 1, .deltacacheFsizeLarge 1]
    ∧ ([.deltacacheFsize 1, .deltacacheFsizeLarge 1] : List StatEvent) ≠ [] := by
  exact ⟨by decide, by decide⟩

/-- C6 (amended): the dsize statistics (delta heap size) are recorded only on
    the first insertion of a node, and a `decode` call for a present node
    inserts nothing and records no call-time statistics; but every `decode`
    call — hit or miss — returns a future that records the produced buffer's
    length (fsize) when it resolves successfully, so buffer-length statistics
    are recorded once per resolved `decode` future, not once per node. -/
theorem c6_stats_on_insertion (repo : NodeHash → Option (List Nat))
    (cache : Cache) (n : NodeHash) (b : Option NodeHash) (d : Delta) :
    (∀ r, List.lookup n cache = some r →
      DeltaCache.decode repo cache n b d = some ⟨r, cache, [], onResolve r⟩)
    ∧ (List.lookup n cache = none →
      DeltaCache.decode repo cache n b d
        = some ⟨decodeVec repo cache n b d,
                (n, decodeVec repo cache n b d) :: cache,
                [.deltacacheDsize d.heapSizeOfChildren,
                 .deltacacheDsizeLarge d.heapSizeOfChildren],
                onResolve (decodeVec repo cache n b d)⟩) :=
  ⟨fun r hr => decode_hit repo cache n b d r hr,
   fun hm => decode_miss repo cache n b d hm⟩

theorem c6_witness :
    DeltaCache.decode repoEmpty [(1, Except.ok [7])] 1 none (Delta.newFulltext [7])
      = some ⟨.ok [7], [(1, Except.ok [7])], [], onResolve (.ok [7])⟩ :=
  (c6_stats_on_insertion repoEmpty [(1, Except.ok [7])] 1 none
    (Delta.newFulltext [7])).1 (.ok [7]) (by decide)

/-! ### Claims about the filelog resolver -/

/-- C3: resolving the one-record stream `[to_deltaed(f)]` yields exactly `[f]`
    for any repository: the output path is `RepoPath::File(path)`, the blob is
    `f`'s content, and a parent slot is `None` in the output exactly when the
    wire slot was `NULL_HASH`. -/
theorem c3_single_record_roundtrip (f : Filelog) (mp : MPath)
    (hpath : f.path = RepoPath.File mp) (hv : validMPath mp = true)
    (hp1 : f.p1 ≠ some NULL_HASH) (hp2 : f.p2 ≠ some NULL_HASH)
    (hn : f.node ≠ NULL_HASH) (hl : f.linknode ≠ NULL_HASH) :
    (∀ repo, convertToRevlogFilelog repo [filelogToDeltaed f] = ([f], none))
    ∧ (∀ h : NodeHash, h.intoOption = none ↔ h = NULL_HASH) := by
  constructor
  · intro repo
    obtain ⟨fp, fn, fp1, fp2, fl, fb⟩ := f
    simp only at hpath hp1 hp2
    subst hpath
    have hdec := decode_miss repo [] fn none (Delta.newFulltext fb) rfl
    simp only [decodeVec, apply_newFulltext] at hdec
    simp only [convertToRevlogFilelog, convertGo, filelogToDeltaed, RepoPath.mpath,
      intoOption_null, hdec]
    simp [RepoPath.file, hv, getD_intoOption hp1, getD_intoOption hp2]
  · intro h
    constructor
    · intro hh
      by_contra hne
      rw [intoOption_of_ne hne] at hh
      cases hh
    · intro hh
      rw [hh]
      rfl

theorem c3_witness :
    convertToRevlogFilelog repoEmpty
        [filelogToDeltaed ⟨.File [116], 1, some 2, some 3, 4, [97, 98]⟩]
      = ([⟨.File [116], 1, some 2, some 3, 4, [97, 98]⟩], none) :=
  (c3_single_record_roundtrip ⟨.File [116], 1, some 2, some 3, 4, [97, 98]⟩ [116]
    rfl (by decide) (by decide) (by decide) (by decide) (by decide)).1 repoEmpty

/-- C2: with two records where the second's base is the first's node and the
    repository cannot resolve that node, the forward order converts fully to
    `[f1, f2]`, while the reversed order fails: the output stream is empty and
    terminates with the wrapped missing-base error for the record whose base
    is neither `NULL_HASH`, nor already decoded, nor resolvable. -/
theorem c2_stream_order_determines_resolvability (f1 f2 : Filelog)
    (mp1 mp2 : MPath) (repo : NodeHash → Option (List Nat))
    (hpath1 : f1.path = RepoPath.File mp1) (hv1 : validMPath mp1 = true)
    (hpath2 : f2.path = RepoPath.File mp2) (hv2 : validMPath mp2 = true)
    (hp11 : f1.p1 ≠ some NULL_HASH) (hp12 : f1.p2 ≠ some NULL_HASH)
    (hp21 : f2.p1 ≠ some NULL_HASH) (hp22 : f2.p2 ≠ some NULL_HASH)
    (hn1 : f1.node ≠ NULL_HASH) (hne : f2.node ≠ f1.node)
    (hrepo : repo f1.node = none) :
    convertToRevlogFilelog repo (filesCheckOrderInput f1 f2 true) = ([f1, f2], none)
    ∧ convertToRevlogFilelog repo (filesCheckOrderInput f1 f2 false)
        = ([], some (.context (baseContextMsg f1.node f2.node)
            (.contentMissing f1.node))) := by
  obtain ⟨fpa, fn1, f1p1, f1p2, fl1, fb1⟩ := f1
  obtain ⟨fpb, fn2, f2p1, f2p2, fl2, fb2⟩ := f2
  simp only at hpath1 hpath2 hp11 hp12 hp21 hp22 hn1 hne hrepo
  subst hpath1
  subst hpath2
  constructor
  · have hdec1 := decode_miss repo [] fn1 none (Delta.newFulltext fb1) rfl
    simp only [decodeVec, apply_newFulltext] at hdec1
    have hlk2 : List.lookup fn2 ([(fn1, Except.ok fb1)] : Cache) = none := by
      simp [List.lookup_cons, beq_false_of_ne hne]
    have hdec2 := decode_miss repo ([(fn1, Except.ok fb1)] : Cache) fn2 (some fn1)
      (computeDelta fb1 fb2) hlk2
    have hvec2 : decodeVec repo ([(fn1, Except.ok fb1)] : Cache) fn2 (some fn1)
        (computeDelta fb1 fb2) = .ok fb2 := by
      simp [decodeVec, List.lookup_cons, Except.map, wrapBaseErr, computeDelta_apply]
    rw [hvec2] at hdec2
    simp only [convertToRevlogFilelog, convertGo, filesCheckOrderInput,
      filelogToDeltaed, RepoPath.mpath, intoOption_null, intoOption_of_ne hn1,
      hdec1, hdec2]
    simp [RepoPath.file, hv1, hv2, getD_intoOption hp11, getD_intoOption hp12,
      getD_intoOption hp21, getD_intoOption hp22]
  · have hvec : decodeVec repo [] fn2 (some fn1) (computeDelta fb1 fb2)
        = .error (.context (baseContextMsg fn1 fn2) (.contentMissing fn1)) := by
      simp [decodeVec, hrepo, wrapBaseErr]
    have hdec := decode_miss repo [] fn2 (some fn1) (computeDelta fb1 fb2) rfl
    rw [hvec] at hdec
    simp only [convertToRevlogFilelog, convertGo, filesCheckOrderInput,
      filelogToDeltaed, RepoPath.mpath, intoOption_of_ne hn1, hdec]

theorem c2_witness :
    convertToRevlogFilelog repoEmpty
        (filesCheckOrderInput ⟨.File [116], 1, some 2, some 3, 4, [10, 11, 12]⟩
          ⟨.File [116, 50], 5, some 6, some 7, 8, [10, 13]⟩ true)
      = ([⟨.File [116], 1, some 2, some 3, 4, [10, 11, 12]⟩,
          ⟨.File [116, 50], 5, some 6, some 7, 8, [10, 13]⟩], none)
    ∧ convertToRevlogFilelog repoEmpty
        (filesCheckOrderInput ⟨.File [116], 1, some 2, some 3, 4, [10, 11, 12]⟩
          ⟨.File [116, 50], 5, some 6, some 7, 8, [10, 13]⟩ false)
      = ([], some (.context (baseContextMsg 1 5) (.contentMissing 1))) :=
  c2_stream_order_determines_resolvability
    ⟨.File [116], 1, some 2, some 3, 4, [10, 11, 12]⟩
    ⟨.File [116, 50], 5, some 6, some 7, 8, [10, 13]⟩ [116] [116, 50] repoEmpty
    rfl (by decide) rfl (by decide) (by decide) (by decide) (by decide) (by decide)
    (by decide) (by decide) rfl

/-! ### Claims about the wireprotocol server -/

lemma isPow2_zero : isPow2 0 = false := by simp [isPow2]

lemma isPow2_one : isPow2 1 = true := by simp [isPow2]

lemma isPow2_succ_succ (n : Nat) :
    isPow2 (n + 2) = (((n + 2) % 2 == 0) && isPow2 ((n + 2) / 2)) := by
  rw [isPow2]

lemma isPow2_iff (n : Nat) : isPow2 n = true ↔ ∃ k, n = 2 ^ k := by
  induction n using Nat.strong_induction_on with
  | _ n ih =>
    match n with
    | 0 =>
      rw [isPow2_zero]
      constructor
      · intro h
        exact absurd h (by simp)
      · rintro ⟨k, hk⟩
        have := Nat.pos_pow_of_pos k (show 0 < 2 by omega)
        omega
    | 1 =>
      rw [isPow2_one]
      constructor
      · intro _
        exact ⟨0, rfl⟩
      · intro _
        rfl
    | n + 2 =>
      rw [isPow2_succ_succ]
      constructor
      · intro h
        simp only [Bool.and_eq_true, beq_iff_eq] at h
        obtain ⟨hmod, hrec⟩ := h
        obtain ⟨k, hk⟩ := (ih ((n + 2) / 2) (by omega)).mp hrec
        refine ⟨k + 1, ?_⟩
        rw [pow_succ]
        omega
      · rintro ⟨k, hk⟩
        match k with
        | 0 =>
          rw [pow_zero] at hk
          omega
        | k + 1 =>
          rw [pow_succ] at hk
          simp only [Bool.and_eq_true, beq_iff_eq]
          refine ⟨by omega, (ih ((n + 2) / 2) (by omega)).mpr ⟨k, by omega⟩⟩

lemma isPow2_pos {f : Nat} (h : isPow2 f = true) : 1 ≤ f := by
  obtain ⟨k, hk⟩ := (isPow2_iff f).mp h
  have := Nat.pos_pow_of_pos k (show 0 < 2 by omega)
  omega

lemma isPow2_two_mul {f : Nat} (h : isPow2 f = true) : isPow2 (2 * f) = true := by
  obtain ⟨k, hk⟩ := (isPow2_iff f).mp h
  refine (isPow2_iff (2 * f)).mpr ⟨k + 1, ?_⟩
  rw [pow_succ, hk]
  ring

lemma isPow2_lt_double {p f : Nat} (hp : isPow2 p = true) (hf : isPow2 f = true)
    (hlt : p < 2 * f) : p ≤ f := by
  obtain ⟨a, ha⟩ := (isPow2_iff p).mp hp
  obtain ⟨j, hj⟩ := (isPow2_iff f).mp hf
  subst ha
  subst hj
  by_contra hc
  push_neg at hc
  have hja : j + 1 ≤ a := by
    by_contra hja
    push_neg at hja
    have := Nat.pow_le_pow_right (show 1 ≤ 2 by omega) (show a ≤ j by omega)
    omega
  have := Nat.pow_le_pow_right (show 1 ≤ 2 by omega) hja
  rw [pow_succ] at this
  omega

/-- The captured-counter filter of `between` keeps exactly the elements at
    power-of-two indices, given that `f` is the least power of two not yet
    passed. -/
lemma sampleFilter_eq_pow2filter (l : List NodeHash) :
    ∀ k f, isPow2 f = true → k ≤ f →
      (∀ p, isPow2 p = true → p < f → p < k) →
      sampleFilter f (List.enumFrom k l)
        = ((List.enumFrom k l).filter (fun p => isPow2 p.1)).map Prod.snd := by
  induction l with
  | nil => intro k f _ _ _; simp [sampleFilter]
  | cons x xs ih =>
    intro k f hf hkf hmin
    by_cases hkeq : k = f
    · subst hkeq
      have hk1 : 1 ≤ k := isPow2_pos hf
      simp only [List.enumFrom, sampleFilter, if_pos rfl, List.filter_cons]
      rw [ih (k + 1) (2 * k) (isPow2_two_mul hf) (by omega) ?_]
      · simp [hf]
      · intro p hp hplt
        have := isPow2_lt_double hp hf hplt
        omega
    · have hklt : k < f := lt_of_le_of_ne hkf hkeq
      have hknp : isPow2 k = false := by
        cases hkk : isPow2 k with
        | false => rfl
        | true =>
          have := hmin k hkk hklt
          omega
      simp only [List.enumFrom, sampleFilter, if_neg hkeq, List.filter_cons]
      rw [ih (k + 1) f hf (by omega) ?_]
      · simp [hknp]
      · intro p hp hplt
        have := hmin p hp hplt
        omega

/-- C7: the sampling filter of `between` (the closure with captured doubling
    counter, started at 1) keeps exactly the raw-chain elements at 0-based
    power-of-two indices 1, 2, 4, 8, 16, ...; and on a linear history of 32
    ancestors from top `1` to bottom `33` the walker yields the full chain
    `[1..32]` and the response is exactly the 5 ancestors at indices
    1, 2, 4, 8, 16. -/
theorem c7_between_exponential_sampling :
    (∀ ch : List NodeHash, sampleFilter 1 ch.enum = pow2Sample ch)
    ∧ parentChain repo32 33 40 1 = some (List.range' 1 32)
    ∧ between repo32 40 [(1, 33)] = some [[2, 3, 5, 9, 17]] := by
  refine ⟨?_, by decide, by decide⟩
  intro ch
  rw [pow2Sample, List.enum_eq_enumFrom]
  apply sampleFilter_eq_pow2filter ch 0 1 isPow2_one (by omega)
  intro p hp hplt
  have hp0 : p = 0 := by omega
  rw [hp0, isPow2_zero] at hp
  cases hp

lemma mapM_getElem? {α β : Type} (g : α → Option β) :
    ∀ (xs : List α) (res : List β), xs.mapM g = some res →
      ∀ (i : Nat) (x : α), xs[i]? = some x → res[i]? = g x := by
  intro xs
  induction xs with
  | nil =>
    intro res h i x hx
    simp at hx
  | cons a as ih =>
    intro res h i x hx
    rw [List.mapM_cons] at h
    cases hga : g a with
    | none =>
      rw [hga] at h
      simp at h
    | some y =>
      rw [hga] at h
      cases hmas : as.mapM g with
      | none =>
        rw [hmas] at h
        simp at h
      | some ys =>
        rw [hmas] at h
        simp only [Option.bind_eq_bind, Option.some_bind, Option.pure_def,
          Option.some.injEq] at h
        cases i with
        | zero =>
          simp only [List.getElem?_cons_zero, Option.some.injEq] at hx
          rw [← h, ← hx, hga]
          simp
        | succ i =>
          simp only [List.getElem?_cons_succ] at hx
          rw [← h]
          simpa using ih ys hmas i x hx

/-- C10: for any input pair of `between` whose top equals its bottom or equals
    `NULL_HASH`, the walker yields no elements, so the entry of the response
    at that pair's position is the empty list. -/
theorem c10_between_empty_on_trivial_pair (repo : NodeHash → Option Parents)
    (fuel : Nat) (pairs : List (NodeHash × NodeHash)) (i : Nat) (t b : NodeHash)
    (hp : pairs[i]? = some (t, b)) (htb : t = b ∨ t = NULL_HASH)
    (res : List (List NodeHash)) (hres : between repo fuel pairs = some res) :
    res[i]? = some [] := by
  have hchain : parentChain repo b fuel t = some [] := by
    rw [parentChain.eq_def]
    dsimp only
    rw [if_pos htb]
  have hpair : betweenPair repo fuel t b = some [] := by
    rw [betweenPair, hchain]
    simp [sampleFilter]
  rw [between] at hres
  have hix := mapM_getElem? (fun p => betweenPair repo fuel p.1 p.2) pairs res
    hres i (t, b) hp
  rw [hix]
  exact hpair

/-- A parents-repository with no changesets at all. -/
def repoParentsEmpty : NodeHash → Option Parents := fun _ => Option.none

theorem c10_witness :
    between repoParentsEmpty 0 [(3, 3)] = some [[]]
    ∧ ([[]] : List (List NodeHash))[0]? = some ([] : List NodeHash) :=
  ⟨by decide,
   c10_between_empty_on_trivial_pair repoParentsEmpty 0 [(3, 3)] 0 3 3 (by decide)
     (Or.inl rfl) [[]] (by decide)⟩

/-- C8 (code bug): when a bookmark's value lookup returns `None`, the source
    returns `future::empty()` — a future that never resolves — so the
    `listkeys` stream and the bundle build never complete (`none` in the
    model); the documented intent ("Skip it.") and the spec instead drop the
    entry and finish with the remaining pairs. -/
theorem c8_bookmark_race_hangs :
    bookmarkItems (fun _ => Option.none) ["stale"] = Option.none
    ∧ bookmarkItemsIntended (fun _ => Option.none) ["stale"] = [] :=
  ⟨rfl, rfl⟩
